import Mathlib

/-!
Verification of the random-number-generation core of the `huy` repository.

Machine integers (`u64`) are embedded as `ℕ` with explicit reduction
modulo `2 ^ 64` wherever the Rust code relies on wrapping behaviour.
Signed machine integers are embedded as `ℤ` together with the type's
`MIN`/`MAX` parameters, so that one parametric definition covers the
whole family of types generated by the source macros.
-/

namespace Huy

/-! ### Core generator: xoshiro256++ (`src/rand/rng.rs`) -/

/-- `u64::rotate_left(x, k)` for `x < 2 ^ 64` and `0 < k < 64`:
`(x << k) | (x >> (64 - k))` with the left shift truncated to 64 bits. -/
def rotl64 (x k : ℕ) : ℕ := ((x <<< k) % 2 ^ 64) ||| (x >>> (64 - k))

/-- The four-word state of `Rng` (`state: [u64; 4]`). -/
abbrev RngState := ℕ × ℕ × ℕ × ℕ

/-- All four state words fit in 64 bits. -/
def ValidState (s : RngState) : Prop :=
  s.1 < 2 ^ 64 ∧ s.2.1 < 2 ^ 64 ∧ s.2.2.1 < 2 ^ 64 ∧ s.2.2.2 < 2 ^ 64

/-- `Rng::next_u64`: returns the output word and the advanced state,
translating the source statement by statement (`wrapping_add` is addition
modulo `2 ^ 64`, `<< 17` is truncated to 64 bits). -/
def nextU64 : RngState → ℕ × RngState
  | (s0, s1, s2, s3) =>
    let result := (rotl64 ((s0 + s3) % 2 ^ 64) 23 + s0) % 2 ^ 64
    let t := (s1 <<< 17) % 2 ^ 64
    let s2a := s2 ^^^ s0
    let s3a := s3 ^^^ s1
    let s1a := s1 ^^^ s2a
    let s0a := s0 ^^^ s3a
    let s2b := s2a ^^^ t
    let s3b := rotl64 s3a 45
    (result, (s0a, s1a, s2b, s3b))

/-- The output word of one `next_u64` call. -/
def nextOutput (s : RngState) : ℕ := (nextU64 s).1

/-- The state after one `next_u64` call. -/
def nextState (s : RngState) : RngState := (nextU64 s).2

/-- The inverse of the state advance of `next_u64`, reconstructing the
previous state from the advanced one (used to prove the advance injective). -/
def prevState : RngState → RngState
  | (a0, a1, a2, a3) =>
    let s3a := rotl64 a3 19
    let s0 := a0 ^^^ s3a
    let c := a2 ^^^ (a1 <<< 17) % 2 ^ 64
    let s2a := c ^^^ (c <<< 17) % 2 ^ 64 ^^^ (c <<< 34) % 2 ^ 64 ^^^ (c <<< 51) % 2 ^ 64
    let s1 := a1 ^^^ s2a
    let s2 := s2a ^^^ s0
    let s3 := s3a ^^^ s1
    (s0, s1, s2, s3)

/-! ### Seeding: SplitMix64 and the two seed paths (`src/rand/rng.rs`) -/

/-- The xor-shift/multiply finalizer inside `SplitMix64::next_u64`
(the two `wrapping_mul` rounds and the final xor-shift), applied to the
already-incremented scalar state. -/
def mix64 (z : ℕ) : ℕ :=
  let z1 := (z ^^^ z >>> 30) * 0xbf58476d1ce4e5b9 % 2 ^ 64
  let z2 := (z1 ^^^ z1 >>> 27) * 0x94d049bb133111eb % 2 ^ 64
  z2 ^^^ z2 >>> 31

/-- `SplitMix64::next_u64`: advances the scalar state by the golden-ratio
constant (wrapping) and returns `(output, new state)`. -/
def splitMixNext (state : ℕ) : ℕ × ℕ :=
  let state2 := (state + 0x9e3779b97f4a7c15) % 2 ^ 64
  (mix64 state2, state2)

/-- `Rng::seed_from_u64`: the four successive SplitMix64 outputs. -/
def seedFromU64 (seed : ℕ) : RngState :=
  let r1 := splitMixNext seed
  let r2 := splitMixNext r1.2
  let r3 := splitMixNext r2.2
  let r4 := splitMixNext r3.2
  (r1.1, r2.1, r3.1, r4.1)

/-- Little-endian value of a list of bytes (`u64::from_le` on an 8-byte chunk). -/
def leWord (bytes : List ℕ) : ℕ := bytes.foldr (fun b acc => b + 256 * acc) 0

/-- `Rng::from_seed`: an all-zero 32-byte seed falls back to
`seed_from_u64(0)`; otherwise the four 8-byte chunks are read as
little-endian words. -/
def fromSeed (seed : List ℕ) : RngState :=
  if seed.all (· = 0) then seedFromU64 0
  else
    (leWord (seed.take 8), leWord ((seed.drop 8).take 8),
      leWord ((seed.drop 16).take 8), leWord ((seed.drop 24).take 8))

/-! ### Byte filler (`Rng::fill_bytes`) -/

/-- `u64::to_le_bytes`. -/
def leBytes8 (x : ℕ) : List ℕ :=
  [x % 256, x / 256 % 256, x / 256 ^ 2 % 256, x / 256 ^ 3 % 256,
    x / 256 ^ 4 % 256, x / 256 ^ 5 % 256, x / 256 ^ 6 % 256, x / 256 ^ 7 % 256]

/-- `Rng::fill_bytes` on a buffer of length `L`: each full 8-byte chunk is the
little-endian bytes of one draw; a non-empty remainder takes the leading bytes
of one further draw. Returns the written bytes and the final generator state. -/
def fillBytes (L : ℕ) (s : RngState) : List ℕ × RngState :=
  if h : 8 ≤ L then
    (leBytes8 (nextU64 s).1 ++ (fillBytes (L - 8) (nextU64 s).2).1,
      (fillBytes (L - 8) (nextU64 s).2).2)
  else if L = 0 then ([], s)
  else ((leBytes8 (nextU64 s).1).take L, (nextU64 s).2)
termination_by L
decreasing_by all_goals omega

/-- The list of the next `n` outputs of the generator. -/
def outputs (s : RngState) : ℕ → List ℕ
  | 0 => []
  | n + 1 => nextOutput s :: outputs (nextState s) n

/-! ### Debiased integer range sampling (`src/rand/integer.rs`) -/

/-- `wide_mul`: the 64×64→128-bit product, split as `(hi, lo)`. -/
def wideMul (lhs rhs : ℕ) : ℕ × ℕ := (lhs * rhs / 2 ^ 64, lhs * rhs % 2 ^ 64)

/-- The redraw loop of `sample_u64_in_range`: keep drawing until the low
product word reaches `range.wrapping_neg()`; the draws are abstracted as a
list, `none` meaning the supplied draws were exhausted before acceptance. -/
def loopRedraw (range : ℕ) : List ℕ → Option ℕ
  | [] => none
  | x :: rest =>
    let hl := wideMul x range
    if (2 ^ 64 - range) % 2 ^ 64 ≤ hl.2 then some hl.1 else loopRedraw range rest

/-- `sample_u64_in_range`: widening-multiply the first draw by `range`; if the
low word is below `range` enter the redraw loop, otherwise return the high
word. -/
def sampleU64InRange (range : ℕ) : List ℕ → Option ℕ
  | [] => none
  | x :: rest =>
    let hl := wideMul x range
    if hl.2 < range then loopRedraw range rest else some hl.1

/-- Low word of the widening product (`lo`). -/
def lowWord (x range : ℕ) : ℕ := x * range % 2 ^ 64

/-- High word of the widening product (`hi`), the candidate sample. -/
def highWord (x range : ℕ) : ℕ := x * range / 2 ^ 64

/-- Number of draws `x < 2^64` that the first round of `sample_u64_in_range`
accepts with value `v` (low word not below `range`, high word `v`). -/
def firstAcceptCount (range v : ℕ) : ℕ :=
  ((Finset.range (2 ^ 64)).filter fun x =>
    ¬ lowWord x range < range ∧ highWord x range = v).card

/-- Number of draws sent to the redraw loop by the first round. -/
def rejectCount (range : ℕ) : ℕ :=
  ((Finset.range (2 ^ 64)).filter fun x => lowWord x range < range).card

/-- Number of draws the redraw loop accepts with value `v` (low word at least
`range.wrapping_neg()`, high word `v`). -/
def loopAcceptCount (range v : ℕ) : ℕ :=
  ((Finset.range (2 ^ 64)).filter fun x =>
    (2 ^ 64 - range) % 2 ^ 64 ≤ lowWord x range ∧ highWord x range = v).card

/-- Total number of draws the redraw loop accepts. -/
def loopTotalCount (range : ℕ) : ℕ :=
  ((Finset.range (2 ^ 64)).filter fun x =>
    (2 ^ 64 - range) % 2 ^ 64 ≤ lowWord x range).card

/-- Exact output distribution of `sample_u64_in_range` under independent
uniform `u64` draws: the probability of returning `v` is the probability that
the first draw accepts with value `v`, plus the probability that the first
draw is rejected times the conditional probability that the redraw loop (a
rejection sampler whose iterations are i.i.d.) accepts with value `v`. -/
def samplePMF (range v : ℕ) : ℚ :=
  firstAcceptCount range v / 2 ^ 64 +
    (rejectCount range / 2 ^ 64) * (loopAcceptCount range v / loopTotalCount range)

/-- `core::ops::Bound`, the two endpoints handed to `build_uniform`. -/
inductive Bnd where
  | inc : ℤ → Bnd
  | exc : ℤ → Bnd
  | unb : Bnd
deriving DecidableEq

/-- Outcome of `build_uniform`: the `empty range` panic, the (provably
unreachable) panic of `checked_add(1).and_then(NonZero::new).unwrap()` on the
width, `None` (full type range), or `Some(Uniform { lower, range })`. -/
inductive BuildResult where
  | empty : BuildResult
  | overflow : BuildResult
  | full : BuildResult
  | dist : ℤ → ℕ → BuildResult
deriving DecidableEq

/-- The normalized inclusive lower bound (unclamped, as a mathematical
integer; `exc n` normalizes to `n + 1`). -/
def normLower (MIN : ℤ) : Bnd → ℤ
  | .inc n => n
  | .exc n => n + 1
  | .unb => MIN

/-- The normalized inclusive upper bound (unclamped; `exc n` normalizes to
`n - 1`). -/
def normUpper (MAX : ℤ) : Bnd → ℤ
  | .inc n => n
  | .exc n => n - 1
  | .unb => MAX

/-- The endpoint value carried by a bound lies in the type `[MIN, MAX]`. -/
def BndInRange (MIN MAX : ℤ) : Bnd → Prop
  | .inc n => MIN ≤ n ∧ n ≤ MAX
  | .exc n => MIN ≤ n ∧ n ≤ MAX
  | .unb => True

/-- `build_uniform` of the source macro, parametrized by the type's
`MIN`/`MAX` so that one definition covers all ten instantiations.
`checked_add(1)`/`checked_sub(1)` fail exactly when stepping past `MAX`/`MIN`;
`lower >= upper` raises the empty-range panic; the full range returns `full`
(the source's `None`); otherwise `abs_diff` is `upper - lower` and the stored
width is `abs_diff + 1`, with `overflow` marking the unsigned width
overflowing its type (the `unwrap`; also covering `NonZero::new` of zero,
which is subsumed since the modelled width is always positive). -/
def buildUniform (MIN MAX : ℤ) (lb ub : Bnd) : BuildResult :=
  match (match lb with
         | .inc n => some n
         | .exc n => if n + 1 ≤ MAX then some (n + 1) else none
         | .unb => some MIN) with
  | none => .empty
  | some lower =>
    match (match ub with
           | .inc n => some n
           | .exc n => if MIN ≤ n - 1 then some (n - 1) else none
           | .unb => some MAX) with
    | none => .empty
    | some upper =>
      if upper ≤ lower then .empty
      else if lower = MIN ∧ upper = MAX then .full
      else if (upper - lower).toNat + 1 ≤ (MAX - MIN).toNat then
        .dist lower ((upper - lower).toNat + 1)
      else .overflow

/-- `sample_uniform` for both macro branches: draw `hi` via
`sample_u64_in_range`, truncate with the `as $unsigned` cast
(`2 ^ w = MAX - MIN + 1` for every supported type), and add it to `lower`.
`none` marks the signed branch's `checked_add_unsigned(..).unwrap()` panic,
equivalently the unsigned branch's overflowing `lower + rand`. -/
def sampleUniform (MIN MAX lower : ℤ) (range : ℕ) (draws : List ℕ) : Option ℤ :=
  match sampleU64InRange range draws with
  | none => none
  | some hi =>
    let rand := hi % (MAX - MIN + 1).toNat
    if lower + rand ≤ MAX then some (lower + (rand : ℤ)) else none

/-- Two's-complement reinterpretation of a `w`-bit word (`as $ty` for the
signed types). -/
def toSigned (w v : ℕ) : ℤ := if v < 2 ^ (w - 1) then (v : ℤ) else (v : ℤ) - 2 ^ w

/-- `UniformInt::sample`: a present descriptor dispatches to
`sample_uniform`; an absent one (full range) dispatches to `T::random`, the
top `w` bits of a single raw draw, reinterpreted two's-complement for signed
types. -/
def sampleViaDescriptor (MIN MAX : ℤ) (w : ℕ) (sgn : Bool) (desc : BuildResult)
    (draws : List ℕ) : Option ℤ :=
  match desc with
  | .dist lower range => sampleUniform MIN MAX lower range draws
  | .full =>
    match draws with
    | [] => none
    | x :: _ => some (if sgn then toSigned w (x >>> (64 - w)) else (x >>> (64 - w) : ℤ))
  | _ => none

/-! ### Floating-point generation (`src/rand/random.rs`, `src/rand/float.rs`) -/

/-- Round `u` to a multiple of `q`, nearest, ties to the even multiple. -/
def rne (q u : ℕ) : ℕ :=
  if 2 * (u % q) < q then u - u % q
  else if q < 2 * (u % q) then u - u % q + q
  else if u / q % 2 = 0 then u - u % q else u - u % q + q

/-- Model of the IEEE-754 `as f32` / `as f64` cast of a 64-bit unsigned
integer: round to nearest even with `p` significand bits (`p = 24` for `f32`,
`p = 53` for `f64`); the result is returned as the exact integer value of the
float, which is well defined since every such input is far below the
overflow threshold of either format. -/
def toFloat (p u : ℕ) : ℕ := rne (2 ^ (u.log2 + 1 - p)) u

/-- `random::<f32>`: `OFFSET = 32 - 23 = 9`, so the draw keeps 55 bits and is
scaled by `SCALE = 1/2^55` (both the conversion of `2^55` to `f32` and the
division are exact, and multiplying the converted draw by this power of two
is exact in `f32`, so the only rounding is in the `as f32` cast itself). -/
def randomF32 (x : ℕ) : ℚ := (toFloat 24 (x >>> 9) : ℚ) / 2 ^ 55

/-- `random::<f64>`: `OFFSET = 64 - 52 = 12`, keeping 52 bits, scaled by
`1/2^52`; the multiplication by this power of two is exact in `f64`. -/
def randomF64 (x : ℕ) : ℚ := (toFloat 53 (x >>> 12) : ℚ) / 2 ^ 52

/-- Model of an `f64` for the `UniformFloat` constructor: a finite value
(carried as its exact rational value), a NaN, or an infinity. -/
inductive FloatVal where
  | finite : ℚ → FloatVal
  | nan : FloatVal
  | posInf : FloatVal
  | negInf : FloatVal
deriving DecidableEq

/-- `is_finite`. -/
def FloatVal.isFinite : FloatVal → Bool
  | .finite _ => true
  | _ => false

/-- IEEE-754 `<` (any comparison involving NaN is false). -/
def FloatVal.flt : FloatVal → FloatVal → Bool
  | .finite a, .finite b => decide (a < b)
  | .finite _, .posInf => true
  | .negInf, .finite _ => true
  | .negInf, .posInf => true
  | _, _ => false

/-- IEEE-754 `<=` (any comparison involving NaN is false). -/
def FloatVal.fle : FloatVal → FloatVal → Bool
  | .nan, _ => false
  | _, .nan => false
  | .negInf, _ => true
  | _, .posInf => true
  | .finite a, .finite b => decide (a ≤ b)
  | _, _ => false

/-- The source's `high - low` on the validated (hence finite) bounds; the
subtraction is modelled exactly (the IEEE rounding of the difference is not
modelled — the stored scale is whatever the source's subtraction yields, and
the claims under verification only concern the finite/ordering validation). -/
def FloatVal.fsub : FloatVal → FloatVal → FloatVal
  | .finite a, .finite b => .finite (a - b)
  | _, _ => .nan

/-- `UniformFloat::new(low, high)`: the `assert!` demands both bounds finite
and `high > low`; `none` models the `invalid interval` panic, otherwise the
descriptor stores `low` and `scale = high - low`. -/
def uniformFloatNew (low high : FloatVal) : Option (FloatVal × FloatVal) :=
  if low.isFinite && high.isFinite && FloatVal.flt low high then
    some (low, high.fsub low)
  else none

/-! ### Theorems -/

theorem testBit_rotl64 (x k i : ℕ) :
    (rotl64 x k).testBit i =
      ((decide (i < 64) && (decide (k ≤ i) && x.testBit (i - k))) ||
        x.testBit (64 - k + i)) := by
  simp only [rotl64, Nat.testBit_or, Nat.testBit_mod_two_pow, Nat.testBit_shiftLeft,
    Nat.testBit_shiftRight, ge_iff_le]

theorem rotl64_lt (x k : ℕ) (hx : x < 2 ^ 64) : rotl64 x k < 2 ^ 64 := by
  refine Nat.or_lt_two_pow (Nat.mod_lt _ (by norm_num)) ?_
  rw [Nat.shiftRight_eq_div_pow]
  exact lt_of_le_of_lt (Nat.div_le_self _ _) hx

theorem rotl64_rotl64 (k : ℕ) (hk0 : 0 < k) (hk : k < 64) (x : ℕ) (hx : x < 2 ^ 64) :
    rotl64 (rotl64 x k) (64 - k) = x := by
  have hbit : ∀ j, 64 ≤ j → x.testBit j = false := fun j hj =>
    Nat.testBit_lt_two_pow (lt_of_lt_of_le hx (Nat.pow_le_pow_right (by norm_num) hj))
  apply Nat.eq_of_testBit_eq
  intro i
  rw [testBit_rotl64, testBit_rotl64, testBit_rotl64]
  have e0 : 64 - (64 - k) = k := by omega
  rw [e0]
  rcases Nat.lt_or_ge i 64 with hi | hi
  · rcases Nat.lt_or_ge i (64 - k) with hik | hik
    · rw [decide_eq_false (by omega : ¬ (64 - k) ≤ i)]
      rw [decide_eq_true (by omega : k + i < 64), decide_eq_true (by omega : k ≤ k + i)]
      have e2 : k + i - k = i := by omega
      have e3 : 64 - k + (k + i) = 64 + i := by omega
      rw [e2, e3, hbit (64 + i) (by omega)]
      simp
    · rw [decide_eq_true hi, decide_eq_true hik]
      rw [decide_eq_false (by omega : ¬ k + i < 64)]
      have e4 : 64 - k + (i - (64 - k)) = i := by omega
      have e5 : 64 - k + (k + i) = 64 + i := by omega
      rw [decide_eq_false (by omega : ¬ k ≤ i - (64 - k)), e4, e5,
        hbit (64 + i) (by omega)]
      simp
  · rw [decide_eq_false (by omega : ¬ i < 64),
      decide_eq_false (by omega : ¬ k + i < 64)]
    have e5 : 64 - k + (k + i) = 64 + i := by omega
    rw [e5, hbit (64 + i) (by omega), hbit i (by omega)]
    simp

theorem unshift17 (u c : ℕ) (hu : u < 2 ^ 64) (hc : c = u ^^^ (u <<< 17) % 2 ^ 64) :
    c ^^^ (c <<< 17) % 2 ^ 64 ^^^ (c <<< 34) % 2 ^ 64 ^^^ (c <<< 51) % 2 ^ 64 = u := by
  have hbit : ∀ j, 64 ≤ j → u.testBit j = false := fun j hj =>
    Nat.testBit_lt_two_pow (lt_of_lt_of_le hu (Nat.pow_le_pow_right (by norm_num) hj))
  subst hc
  apply Nat.eq_of_testBit_eq
  intro i
  simp only [Nat.testBit_xor, Nat.testBit_mod_two_pow, Nat.testBit_shiftLeft, ge_iff_le]
  rcases Nat.lt_or_ge i 64 with hi | hi
  · rw [decide_eq_true hi]
    rcases Nat.lt_or_ge i 17 with h17 | h17
    · rw [decide_eq_false (by omega : ¬ 17 ≤ i), decide_eq_false (by omega : ¬ 34 ≤ i),
        decide_eq_false (by omega : ¬ 51 ≤ i)]
      simp
    · rcases Nat.lt_or_ge i 34 with h34 | h34
      · rw [decide_eq_true h17, decide_eq_false (by omega : ¬ 34 ≤ i),
          decide_eq_false (by omega : ¬ 51 ≤ i),
          decide_eq_true (by omega : i - 17 < 64),
          decide_eq_false (by omega : ¬ 17 ≤ i - 17)]
        simp [Bool.xor_assoc]
      · rcases Nat.lt_or_ge i 51 with h51 | h51
        · have e1 : i - 17 - 17 = i - 34 := by omega
          rw [decide_eq_true h17, decide_eq_true h34,
            decide_eq_false (by omega : ¬ 51 ≤ i),
            decide_eq_true (by omega : i - 17 < 64),
            decide_eq_true (by omega : 17 ≤ i - 17),
            decide_eq_true (by omega : i - 34 < 64),
            decide_eq_false (by omega : ¬ 17 ≤ i - 34), e1]
          cases u.testBit i <;> cases u.testBit (i - 17) <;> cases u.testBit (i - 34) <;> rfl
        · have e1 : i - 17 - 17 = i - 34 := by omega
          have e2 : i - 34 - 17 = i - 51 := by omega
          rw [decide_eq_true h17, decide_eq_true h34, decide_eq_true h51,
            decide_eq_true (by omega : i - 17 < 64),
            decide_eq_true (by omega : 17 ≤ i - 17),
            decide_eq_true (by omega : i - 34 < 64),
            decide_eq_true (by omega : 17 ≤ i - 34),
            decide_eq_true (by omega : i - 51 < 64),
            decide_eq_false (by omega : ¬ 17 ≤ i - 51), e1, e2]
          cases u.testBit i <;> cases u.testBit (i - 17) <;> cases u.testBit (i - 34) <;>
            cases u.testBit (i - 51) <;> rfl
  · rw [decide_eq_false (by omega : ¬ i < 64), hbit i hi]
    simp

theorem shiftLeft_mod_xor (x y k : ℕ) :
    ((x ^^^ y) <<< k) % 2 ^ 64 = (x <<< k) % 2 ^ 64 ^^^ (y <<< k) % 2 ^ 64 := by
  apply Nat.eq_of_testBit_eq
  intro i
  simp only [Nat.testBit_xor, Nat.testBit_mod_two_pow, Nat.testBit_shiftLeft, ge_iff_le]
  cases decide (i < 64) <;> cases decide (k ≤ i) <;>
    cases x.testBit (i - k) <;> cases y.testBit (i - k) <;> rfl

theorem nextState_closed (s0 s1 s2 s3 : ℕ) :
    nextState (s0, s1, s2, s3) =
      (s0 ^^^ (s3 ^^^ s1), s1 ^^^ (s2 ^^^ s0),
        s2 ^^^ s0 ^^^ (s1 <<< 17) % 2 ^ 64, rotl64 (s3 ^^^ s1) 45) := rfl

theorem prevState_nextState (s : RngState) (hs : ValidState s) :
    prevState (nextState s) = s := by
  obtain ⟨s0, s1, s2, s3⟩ := s
  obtain ⟨h0, h1, h2, h3⟩ := hs
  rw [nextState_closed]
  rw [show prevState
      (s0 ^^^ (s3 ^^^ s1), s1 ^^^ (s2 ^^^ s0),
        s2 ^^^ s0 ^^^ (s1 <<< 17) % 2 ^ 64, rotl64 (s3 ^^^ s1) 45) =
      (let s3a := rotl64 (rotl64 (s3 ^^^ s1) 45) 19
       let a1 := s1 ^^^ (s2 ^^^ s0)
       let c := (s2 ^^^ s0 ^^^ (s1 <<< 17) % 2 ^ 64) ^^^ (a1 <<< 17) % 2 ^ 64
       let s2a := c ^^^ (c <<< 17) % 2 ^ 64 ^^^ (c <<< 34) % 2 ^ 64 ^^^ (c <<< 51) % 2 ^ 64
       ((s0 ^^^ (s3 ^^^ s1)) ^^^ s3a, a1 ^^^ s2a,
         s2a ^^^ ((s0 ^^^ (s3 ^^^ s1)) ^^^ s3a), s3a ^^^ (a1 ^^^ s2a))) from rfl]
  have hrot : rotl64 (rotl64 (s3 ^^^ s1) 45) 19 = s3 ^^^ s1 := by
    have h := rotl64_rotl64 45 (by norm_num) (by norm_num) (s3 ^^^ s1)
      (Nat.xor_lt_two_pow h3 h1)
    norm_num at h
    exact h
  have hu : s2 ^^^ s0 < 2 ^ 64 := Nat.xor_lt_two_pow h2 h0
  have hxlc : ∀ a b c : ℕ, a ^^^ (b ^^^ c) = b ^^^ (a ^^^ c) := fun a b c => by
    rw [← Nat.xor_assoc, Nat.xor_comm a b, Nat.xor_assoc]
  have hc : (s2 ^^^ s0 ^^^ (s1 <<< 17) % 2 ^ 64) ^^^ ((s1 ^^^ (s2 ^^^ s0)) <<< 17) % 2 ^ 64
      = (s2 ^^^ s0) ^^^ ((s2 ^^^ s0) <<< 17) % 2 ^ 64 := by
    rw [shiftLeft_mod_xor]
    simp [Nat.xor_assoc, Nat.xor_comm, hxlc, Nat.xor_cancel_left, Nat.xor_cancel_right]
  simp only [hrot, hc]
  rw [unshift17 (s2 ^^^ s0) _ hu rfl]
  refine Prod.ext ?_ (Prod.ext ?_ (Prod.ext ?_ ?_)) <;>
    simp [Nat.xor_assoc, Nat.xor_comm, hxlc, Nat.xor_cancel_left, Nat.xor_cancel_right]

theorem validState_nextState (s : RngState) (hs : ValidState s) :
    ValidState (nextState s) := by
  obtain ⟨s0, s1, s2, s3⟩ := s
  obtain ⟨h0, h1, h2, h3⟩ := hs
  rw [nextState_closed]
  exact ⟨Nat.xor_lt_two_pow h0 (Nat.xor_lt_two_pow h3 h1),
    Nat.xor_lt_two_pow h1 (Nat.xor_lt_two_pow h2 h0),
    Nat.xor_lt_two_pow (Nat.xor_lt_two_pow h2 h0) (Nat.mod_lt _ (by norm_num)),
    rotl64_lt _ _ (Nat.xor_lt_two_pow h3 h1)⟩

/-- C3: for every four-word state, `next_u64` returns
`rotate_left(s0 + s3, 23) + s0` (wrapping) computed from the state before any
mutation, and advances the state by `t = s1 << 17`; `s2 ^= s0`; `s3 ^= s1`;
`s1 ^= s2`; `s0 ^= s3`; `s2 ^= t`; `s3 = rotate_left(s3, 45)` — here written
in the equivalent closed form obtained by expanding that exact sequence. -/
theorem nextU64_eq_spec (s0 s1 s2 s3 : ℕ) :
    nextU64 (s0, s1, s2, s3) =
      ((rotl64 ((s0 + s3) % 2 ^ 64) 23 + s0) % 2 ^ 64,
        (s0 ^^^ (s3 ^^^ s1),
          s1 ^^^ (s2 ^^^ s0),
          s2 ^^^ s0 ^^^ (s1 <<< 17) % 2 ^ 64,
          rotl64 (s3 ^^^ s1) 45)) := rfl


/-- C10: the state update performed by `next_u64` is injective on four-word
states and maps the all-zero state to itself only; consequently every state
that is not all-zero stays not all-zero under any number of draws. -/
theorem nextState_injective_zero_fixed (s t : RngState) (hs : ValidState s)
    (ht : ValidState t) (n : ℕ) :
    (nextState s = nextState t → s = t) ∧
      nextState (0, 0, 0, 0) = (0, 0, 0, 0) ∧
      (nextState s = (0, 0, 0, 0) ↔ s = (0, 0, 0, 0)) ∧
      (s ≠ (0, 0, 0, 0) → nextState^[n] s ≠ (0, 0, 0, 0)) := by
  have hinj : ∀ a b : RngState, ValidState a → ValidState b →
      nextState a = nextState b → a = b := fun a b ha hb h => by
    rw [← prevState_nextState a ha, h, prevState_nextState b hb]
  have hzv : ValidState (0, 0, 0, 0) := by norm_num [ValidState]
  have hzero : nextState (0, 0, 0, 0) = (0, 0, 0, 0) := by decide
  have hiter : ∀ m (a : RngState), ValidState a → a ≠ (0, 0, 0, 0) →
      nextState^[m] a ≠ (0, 0, 0, 0) := by
    intro m
    induction m with
    | zero => intro a _ hne; simpa using hne
    | succ k ih =>
      intro a ha hne
      rw [Function.iterate_succ_apply]
      exact ih (nextState a) (validState_nextState a ha)
        (fun h => hne (hinj a (0, 0, 0, 0) ha hzv (h.trans hzero.symm)))
  exact ⟨hinj s t hs ht, hzero,
    ⟨fun h => hinj s (0, 0, 0, 0) hs hzv (h.trans hzero.symm),
      fun h => h ▸ hzero⟩,
    hiter n s hs⟩

theorem nextState_injective_zero_fixed_witness :
    ValidState (1, 2, 3, 4) ∧ ValidState (0, 0, 0, 1) ∧
      ((nextState (1, 2, 3, 4) = nextState (0, 0, 0, 1) →
          (1, 2, 3, 4) = ((0, 0, 0, 1) : RngState)) ∧
        nextState (0, 0, 0, 0) = (0, 0, 0, 0) ∧
        (nextState (1, 2, 3, 4) = (0, 0, 0, 0) ↔
          (1, 2, 3, 4) = ((0, 0, 0, 0) : RngState)) ∧
        ((1, 2, 3, 4) ≠ ((0, 0, 0, 0) : RngState) →
          nextState^[3] (1, 2, 3, 4) ≠ (0, 0, 0, 0))) :=
  ⟨by norm_num [ValidState], by norm_num [ValidState],
    nextState_injective_zero_fixed (1, 2, 3, 4) (0, 0, 0, 1)
      (by norm_num [ValidState]) (by norm_num [ValidState]) 3⟩

theorem unxorshift (r : ℕ) (hr : 64 ≤ 3 * r) (z : ℕ) (hz : z < 2 ^ 64) :
    (z ^^^ z >>> r) ^^^ (z ^^^ z >>> r) >>> r ^^^ (z ^^^ z >>> r) >>> (2 * r) = z := by
  apply Nat.eq_of_testBit_eq
  intro i
  simp only [Nat.testBit_xor, Nat.testBit_shiftRight]
  have h1 : r + (r + i) = 2 * r + i := by ring
  have h2 : r + (2 * r + i) = 3 * r + i := by ring
  rw [h1, h2]
  have h3 : z.testBit (3 * r + i) = false :=
    Nat.testBit_lt_two_pow (lt_of_lt_of_le hz (Nat.pow_le_pow_right (by norm_num) (by omega)))
  rw [h3]
  cases z.testBit i <;> cases z.testBit (r + i) <;> cases z.testBit (2 * r + i) <;> rfl

theorem xorshiftRight_inj (r : ℕ) (hr : 64 ≤ 3 * r) (a b : ℕ) (ha : a < 2 ^ 64)
    (hb : b < 2 ^ 64) (h : a ^^^ a >>> r = b ^^^ b >>> r) : a = b := by
  have Ha := unxorshift r hr a ha
  have Hb := unxorshift r hr b hb
  rw [← Ha, h]
  exact Hb

theorem mulMod_inj (M : ℕ) (hM : Nat.gcd (2 ^ 64) M = 1) (a b : ℕ) (ha : a < 2 ^ 64)
    (hb : b < 2 ^ 64) (h : a * M % 2 ^ 64 = b * M % 2 ^ 64) : a = b := by
  have h2 : a ≡ b [MOD 2 ^ 64] := Nat.ModEq.cancel_right_of_coprime hM h
  have h3 : a % 2 ^ 64 = b % 2 ^ 64 := h2
  rwa [Nat.mod_eq_of_lt ha, Nat.mod_eq_of_lt hb] at h3

theorem mix64_inj (a b : ℕ) (ha : a < 2 ^ 64) (hb : b < 2 ^ 64)
    (h : mix64 a = mix64 b) : a = b := by
  have hshr : ∀ x r : ℕ, x < 2 ^ 64 → x >>> r < 2 ^ 64 := fun x r hx => by
    rw [Nat.shiftRight_eq_div_pow]
    exact lt_of_le_of_lt (Nat.div_le_self _ _) hx
  have hmod : ∀ x : ℕ, x % 2 ^ 64 < 2 ^ 64 := fun x => Nat.mod_lt _ (by norm_num)
  simp only [mix64] at h
  have h2 := xorshiftRight_inj 31 (by norm_num) _ _ (hmod _) (hmod _) h
  have h3 := mulMod_inj 0x94d049bb133111eb (by decide) _ _
    (Nat.xor_lt_two_pow (hmod _) (hshr _ _ (hmod _)))
    (Nat.xor_lt_two_pow (hmod _) (hshr _ _ (hmod _))) h2
  have h4 := xorshiftRight_inj 27 (by norm_num) _ _ (hmod _) (hmod _) h3
  have h5 := mulMod_inj 0xbf58476d1ce4e5b9 (by decide) _ _
    (Nat.xor_lt_two_pow ha (hshr _ _ ha)) (Nat.xor_lt_two_pow hb (hshr _ _ hb)) h4
  exact xorshiftRight_inj 30 (by norm_num) _ _ ha hb h5

theorem seedFromU64_ne_allzero (seed : ℕ) : seedFromU64 seed ≠ (0, 0, 0, 0) := by
  intro h
  simp only [seedFromU64, splitMixNext, Prod.mk.injEq] at h
  obtain ⟨h1, h2, -, -⟩ := h
  have hmod : ∀ x : ℕ, x % 2 ^ 64 < 2 ^ 64 := fun x => Nat.mod_lt _ (by norm_num)
  have heq := mix64_inj _ _ (hmod _) (hmod _) (h1.trans h2.symm)
  omega

theorem leWord_eq_zero (l : List ℕ) : leWord l = 0 ↔ ∀ b ∈ l, b = 0 := by
  induction l with
  | nil => simp [leWord]
  | cons x xs ih =>
    simp only [leWord, List.foldr_cons] at ih ⊢
    constructor
    · intro h
      have hx : x = 0 ∧ List.foldr (fun b acc => b + 256 * acc) 0 xs = 0 := by omega
      intro b hb
      rcases List.mem_cons.mp hb with hb | hb
      · exact hb ▸ hx.1
      · exact ih.mp hx.2 b hb
    · intro h
      have hx : x = 0 := h x (List.mem_cons_self x xs)
      have hxs : List.foldr (fun b acc => b + 256 * acc) 0 xs = 0 :=
        ih.mpr fun b hb => h b (List.mem_cons_of_mem _ hb)
      omega

/-- C9: for every `u64` seed (including 0) and for every 32-byte seed, the
four-word state produced by `seed_from_u64` and by `from_seed` is never
all-zero: non-zero byte seeds are read directly as little-endian words (one of
which is then non-zero), an all-zero byte seed falls back to the scalar path
with seed 0, and no two (a fortiori not all four) SplitMix64 outputs of the
scalar path can be simultaneously zero. -/
theorem seeding_never_all_zero (seed : ℕ) (bytes : List ℕ) (hlen : bytes.length = 32) :
    seedFromU64 seed ≠ (0, 0, 0, 0) ∧ fromSeed bytes ≠ (0, 0, 0, 0) := by
  refine ⟨seedFromU64_ne_allzero seed, ?_⟩
  unfold fromSeed
  split_ifs with hall
  · exact seedFromU64_ne_allzero 0
  · intro h
    simp only [Prod.mk.injEq] at h
    obtain ⟨h1, h2, h3, h4⟩ := h
    apply hall
    simp only [List.all_eq_true, decide_eq_true_eq]
    intro b hb
    have hsplit1 : b ∈ bytes.take 8 ∨ b ∈ bytes.drop 8 := by
      have hmem := hb
      rw [← List.take_append_drop 8 bytes] at hmem
      exact List.mem_append.mp hmem
    rcases hsplit1 with hc | hrest
    · exact (leWord_eq_zero _).mp h1 b hc
    · have e8 : (bytes.drop 8).drop 8 = bytes.drop 16 := by simp
      have hsplit2 : b ∈ (bytes.drop 8).take 8 ∨ b ∈ bytes.drop 16 := by
        have hmem := hrest
        rw [← List.take_append_drop 8 (bytes.drop 8)] at hmem
        rcases List.mem_append.mp hmem with hx | hx
        · exact Or.inl hx
        · exact Or.inr (e8 ▸ hx)
      rcases hsplit2 with hc | hrest2
      · exact (leWord_eq_zero _).mp h2 b hc
      · have e16 : (bytes.drop 16).drop 8 = bytes.drop 24 := by simp
        have hsplit3 : b ∈ (bytes.drop 16).take 8 ∨ b ∈ bytes.drop 24 := by
          have hmem := hrest2
          rw [← List.take_append_drop 8 (bytes.drop 16)] at hmem
          rcases List.mem_append.mp hmem with hx | hx
          · exact Or.inl hx
          · exact Or.inr (e16 ▸ hx)
        rcases hsplit3 with hc | hrest3
        · exact (leWord_eq_zero _).mp h3 b hc
        · have e24 : (bytes.drop 24).drop 8 = bytes.drop 32 := by simp
          have hnil : bytes.drop 32 = [] := List.drop_eq_nil_of_le (by omega)
          have hfin : b ∈ (bytes.drop 24).take 8 := by
            have hmem := hrest3
            rw [← List.take_append_drop 8 (bytes.drop 24)] at hmem
            rcases List.mem_append.mp hmem with hx | hx
            · exact hx
            · rw [e24, hnil] at hx
              cases hx
          exact (leWord_eq_zero _).mp h4 b hfin

theorem seeding_never_all_zero_witness :
    (List.replicate 32 0).length = 32 ∧
      (seedFromU64 5 ≠ (0, 0, 0, 0) ∧ fromSeed (List.replicate 32 0) ≠ (0, 0, 0, 0)) :=
  ⟨by simp, seeding_never_all_zero 5 (List.replicate 32 0) (by simp)⟩

theorem leBytes8_length (x : ℕ) : (leBytes8 x).length = 8 := rfl

/-- C7: `fill_bytes` on a buffer of length `L` consumes exactly
`ceil(L/8) = (L + 7) / 8` draws (the final generator state is the
`(L + 7) / 8`-fold advance of the initial one), and the bytes written are the
concatenation of the little-endian byte representations of those draws,
truncated to `L` bytes. -/
theorem fillBytes_eq_draws (L : ℕ) (s : RngState) :
    fillBytes L s =
      ((List.flatten (List.map leBytes8 (outputs s ((L + 7) / 8)))).take L,
        nextState^[(L + 7) / 8] s) := by
  induction L using Nat.strong_induction_on generalizing s with
  | _ L ih =>
    rw [fillBytes]
    by_cases h8 : 8 ≤ L
    · rw [dif_pos h8, ih (L - 8) (by omega)]
      have hk : (L + 7) / 8 = (L - 8 + 7) / 8 + 1 := by omega
      rw [hk]
      have houts : outputs s ((L - 8 + 7) / 8 + 1) =
          nextOutput s :: outputs (nextState s) ((L - 8 + 7) / 8) := rfl
      rw [houts, List.map_cons, List.flatten_cons, Function.iterate_succ_apply,
        List.take_append_eq_append_take,
        List.take_of_length_le (show (leBytes8 (nextOutput s)).length ≤ L by
          rw [leBytes8_length]; omega),
        leBytes8_length]
      exact rfl
    · by_cases h0 : L = 0
      · subst h0
        rw [dif_neg h8, if_pos rfl]
        simp [outputs]
      · have h1 : (L + 7) / 8 = 1 := by omega
        rw [dif_neg h8, if_neg h0, h1]
        have houts : outputs s 1 = [nextOutput s] := rfl
        rw [houts]
        simp [nextOutput, nextState]

/-- C8: `UniformFloat::new(low, high)` fails with the invalid-interval
condition iff a bound is non-finite or `high <= low` (IEEE comparisons, so a
NaN bound fails via non-finiteness); in particular `new(1.0, 1.0)` and
`new(NaN, 1.0)` both fail, and for all finite bounds with `high > low`
construction succeeds with scale `high - low`. -/
theorem uniformFloatNew_spec (low high : FloatVal) (a b : ℚ) (hab : a < b) :
    (uniformFloatNew low high = none ↔
      (low.isFinite = false ∨ high.isFinite = false ∨ FloatVal.fle high low = true)) ∧
      uniformFloatNew (.finite 1) (.finite 1) = none ∧
      uniformFloatNew .nan (.finite 1) = none ∧
      uniformFloatNew (.finite a) (.finite b) = some (.finite a, .finite (b - a)) := by
  refine ⟨?_, by norm_num [uniformFloatNew, FloatVal.isFinite, FloatVal.flt], rfl, ?_⟩
  · cases low <;> cases high <;>
      simp [uniformFloatNew, FloatVal.isFinite, FloatVal.flt, FloatVal.fle, not_lt]
  · simp [uniformFloatNew, FloatVal.isFinite, FloatVal.flt, FloatVal.fsub, hab]

theorem uniformFloatNew_spec_witness :
    (0 : ℚ) < 1 ∧
      ((uniformFloatNew .nan (.finite 1) = none ↔
        (FloatVal.isFinite .nan = false ∨ FloatVal.isFinite (.finite 1) = false ∨
          FloatVal.fle (.finite 1) .nan = true)) ∧
        uniformFloatNew (.finite 1) (.finite 1) = none ∧
        uniformFloatNew .nan (.finite 1) = none ∧
        uniformFloatNew (.finite 0) (.finite 1) = some (.finite 0, .finite (1 - 0))) :=
  ⟨by norm_num, uniformFloatNew_spec .nan (.finite 1) 0 1 (by norm_num)⟩

theorem buildUniform_eq (MIN MAX : ℤ) (lb ub : Bnd) (hMM : MIN < MAX)
    (hlb : BndInRange MIN MAX lb) (hub : BndInRange MIN MAX ub) :
    buildUniform MIN MAX lb ub =
      (if normUpper MAX ub ≤ normLower MIN lb then .empty
       else if normLower MIN lb = MIN ∧ normUpper MAX ub = MAX then .full
       else .dist (normLower MIN lb)
         ((normUpper MAX ub - normLower MIN lb).toNat + 1)) := by
  cases lb <;> cases ub <;>
    simp only [buildUniform, normLower, normUpper, BndInRange] at hlb hub ⊢ <;>
    split_ifs <;> simp_all
  all_goals try (split_ifs <;> try simp_all)
  all_goals omega

/-- C4 counterexample: on `u8` the range `5..=5` contains exactly one value
and is neither empty nor inverted, yet `build_uniform` raises the empty-range
panic, because the `lower >= upper` check also fires when `lower = upper`. -/
theorem buildUniform_singleton_empty :
    buildUniform 0 255 (.inc 5) (.inc 5) = .empty ∧
      normLower 0 (.inc 5) = normUpper 255 (.inc 5) := by
  exact ⟨by decide, by decide⟩

/-- C4 (amended): `UniformInt::new` fails with the empty-range condition iff
the range, normalized to an inclusive pair, satisfies `upper <= lower` — that
is, iff it contains fewer than two values; every range with at least two
values builds successfully, and the width `unwrap` can never panic. -/
theorem buildUniform_empty_iff (MIN MAX : ℤ) (lb ub : Bnd) (hMM : MIN < MAX)
    (hlb : BndInRange MIN MAX lb) (hub : BndInRange MIN MAX ub) :
    (buildUniform MIN MAX lb ub = .empty ↔ normUpper MAX ub ≤ normLower MIN lb) ∧
      buildUniform MIN MAX lb ub ≠ .overflow := by
  rw [buildUniform_eq MIN MAX lb ub hMM hlb hub]
  split_ifs with h1 h2 <;> simp [h1]

theorem buildUniform_empty_iff_witness :
    (0 : ℤ) < 255 ∧ BndInRange 0 255 (.inc 3) ∧ BndInRange 0 255 (.inc 7) ∧
      ((buildUniform 0 255 (.inc 3) (.inc 7) = .empty ↔
          normUpper 255 (.inc 7) ≤ normLower 0 (.inc 3)) ∧
        buildUniform 0 255 (.inc 3) (.inc 7) ≠ .overflow) :=
  ⟨by decide, by norm_num [BndInRange], by norm_num [BndInRange],
    buildUniform_empty_iff 0 255 (.inc 3) (.inc 7) (by decide)
      (by norm_num [BndInRange]) (by norm_num [BndInRange])⟩

/-- C5 counterexample: on `u8` the range `0..=9` holds ten values; the claim
would store `size - 1 = 9` in the descriptor's range field, but the code
stores `abs_diff(lower, upper) + 1 = 10`, the number of values. -/
theorem buildUniform_range_field_counterexample :
    buildUniform 0 255 (.inc 0) (.inc 9) = .dist 0 10 ∧
      buildUniform 0 255 (.inc 0) (.inc 9) ≠ .dist 0 (10 - 1) := by
  exact ⟨by decide, by decide⟩

/-- C5 (amended): a present descriptor holds the normalized inclusive lower
bound and, as its unsigned range field, the number of values of the range
(`abs_diff(lower, upper) + 1`, i.e. the size of the range, not size minus
one); the descriptor is absent exactly when the normalized range is the full
type range, and in that case `UniformInt::sample` dispatches to the raw
full-width `random` draw. -/
theorem buildUniform_descriptor_spec (MIN MAX : ℤ) (lb ub : Bnd) (hMM : MIN < MAX)
    (hlb : BndInRange MIN MAX lb) (hub : BndInRange MIN MAX ub) (w : ℕ) (sgn : Bool)
    (x : ℕ) (draws : List ℕ) :
    (buildUniform MIN MAX lb ub = .full ↔
      (normLower MIN lb = MIN ∧ normUpper MAX ub = MAX)) ∧
      (normLower MIN lb < normUpper MAX ub →
        ¬(normLower MIN lb = MIN ∧ normUpper MAX ub = MAX) →
        buildUniform MIN MAX lb ub =
          .dist (normLower MIN lb) ((normUpper MAX ub - normLower MIN lb).toNat + 1)) ∧
      sampleViaDescriptor MIN MAX w sgn .full (x :: draws) =
        some (if sgn then toSigned w (x >>> (64 - w)) else (x >>> (64 - w) : ℤ)) := by
  refine ⟨?_, ?_, rfl⟩
  · rw [buildUniform_eq MIN MAX lb ub hMM hlb hub]
    split_ifs with h1 h2
    · constructor
      · intro h
        exact absurd h (by simp)
      · rintro ⟨e1, e2⟩
        omega
    · simp [h2]
    · simp [h2]
  · intro hlt hnot
    rw [buildUniform_eq MIN MAX lb ub hMM hlb hub, if_neg (by omega), if_neg hnot]

theorem buildUniform_descriptor_spec_witness :
    (0 : ℤ) < 255 ∧ BndInRange 0 255 (.inc 2) ∧ BndInRange 0 255 (.inc 250) ∧
      ((buildUniform 0 255 (.inc 2) (.inc 250) = .full ↔
        (normLower 0 (.inc 2) = 0 ∧ normUpper 255 (.inc 250) = 255)) ∧
        (normLower 0 (.inc 2) < normUpper 255 (.inc 250) →
          ¬(normLower 0 (.inc 2) = 0 ∧ normUpper 255 (.inc 250) = 255) →
          buildUniform 0 255 (.inc 2) (.inc 250) =
            .dist (normLower 0 (.inc 2))
              ((normUpper 255 (.inc 250) - normLower 0 (.inc 2)).toNat + 1)) ∧
        sampleViaDescriptor 0 255 8 false .full (3 :: []) =
          some (if false then toSigned 8 (3 >>> (64 - 8)) else (3 >>> (64 - 8) : ℤ))) :=
  ⟨by decide, by norm_num [BndInRange], by norm_num [BndInRange],
    buildUniform_descriptor_spec 0 255 (.inc 2) (.inc 250) (by decide)
      (by norm_num [BndInRange]) (by norm_num [BndInRange]) 8 false 3 []⟩

theorem highWord_lt (x range : ℕ) (hx : x < 2 ^ 64) (hr : 0 < range) :
    x * range / 2 ^ 64 < range := by
  rw [Nat.div_lt_iff_lt_mul (by norm_num : 0 < 2 ^ 64)]
  calc x * range < 2 ^ 64 * range := (Nat.mul_lt_mul_right hr).mpr hx
    _ = range * 2 ^ 64 := Nat.mul_comm _ _

theorem loopRedraw_lt (range : ℕ) (hr : 0 < range) :
    ∀ draws : List ℕ, (∀ x ∈ draws, x < 2 ^ 64) →
      ∀ hi, loopRedraw range draws = some hi → hi < range := by
  intro draws
  induction draws with
  | nil => intro _ hi h; simp [loopRedraw] at h
  | cons x rest ih =>
    intro hd hi h
    simp only [loopRedraw, wideMul] at h
    split_ifs at h with hc
    · rw [Option.some_inj] at h
      subst h
      exact highWord_lt x range (hd x (List.mem_cons_self x rest)) hr
    · exact ih (fun y hy => hd y (List.mem_cons_of_mem _ hy)) hi h

theorem sampleU64InRange_lt (range : ℕ) (hr : 0 < range) (draws : List ℕ)
    (hd : ∀ x ∈ draws, x < 2 ^ 64) (hi : ℕ)
    (h : sampleU64InRange range draws = some hi) : hi < range := by
  cases draws with
  | nil => simp [sampleU64InRange] at h
  | cons x rest =>
    simp only [sampleU64InRange, wideMul] at h
    split_ifs at h with hc
    · exact loopRedraw_lt range hr rest (fun y hy => hd y (List.mem_cons_of_mem _ hy)) hi h
    · rw [Option.some_inj] at h
      subst h
      exact highWord_lt x range (hd x (List.mem_cons_self x rest)) hr

theorem normLower_ge (MIN MAX : ℤ) (lb : Bnd) (hlb : BndInRange MIN MAX lb) :
    MIN ≤ normLower MIN lb := by
  cases lb <;> simp only [normLower, BndInRange] at hlb ⊢ <;> omega

theorem normUpper_le (MIN MAX : ℤ) (ub : Bnd) (hub : BndInRange MIN MAX ub) :
    normUpper MAX ub ≤ MAX := by
  cases ub <;> simp only [normUpper, BndInRange] at hub ⊢ <;> omega

/-- C6: for every descriptor built successfully by `UniformInt::new` and every
sequence of draws on which `sample_u64_in_range` returns, the returned `hi` is
strictly below the stored range, so the signed path's checked addition never
returns `None`, the unsigned path's addition stays within the type, and the
sampled value lies within the requested inclusive bounds. -/
theorem sampleUniform_some_in_bounds (MIN MAX : ℤ) (lb ub : Bnd) (lower : ℤ)
    (range : ℕ) (hMM : MIN < MAX) (hlb : BndInRange MIN MAX lb)
    (hub : BndInRange MIN MAX ub)
    (hbuild : buildUniform MIN MAX lb ub = .dist lower range)
    (draws : List ℕ) (hd : ∀ x ∈ draws, x < 2 ^ 64) (hi : ℕ)
    (hs : sampleU64InRange range draws = some hi) :
    sampleUniform MIN MAX lower range draws = some (lower + (hi : ℤ)) ∧
      normLower MIN lb ≤ lower + (hi : ℤ) ∧
      lower + (hi : ℤ) ≤ normUpper MAX ub := by
  have hln := normLower_ge MIN MAX lb hlb
  have hun := normUpper_le MIN MAX ub hub
  rw [buildUniform_eq MIN MAX lb ub hMM hlb hub] at hbuild
  split_ifs at hbuild with h1 h2
  injection hbuild with e1 e2
  subst e1
  subst e2
  have hr0 : 0 < (normUpper MAX ub - normLower MIN lb).toNat + 1 := by omega
  have hhi := sampleU64InRange_lt _ hr0 draws hd hi hs
  have hmod : hi % (MAX - MIN + 1).toNat = hi := Nat.mod_eq_of_lt (by omega)
  refine ⟨?_, by omega, by omega⟩
  simp only [sampleUniform, hs, hmod]
  rw [if_pos (by omega)]

theorem firstAcceptCount3_0 : firstAcceptCount 3 0 = 6148914691236517205 := by
  unfold firstAcceptCount
  have hset : ((Finset.range (2 ^ 64)).filter fun x =>
      ¬ lowWord x 3 < 3 ∧ highWord x 3 = 0) = Finset.Ico 1 6148914691236517206 := by
    ext x
    simp only [Finset.mem_filter, Finset.mem_range, Finset.mem_Ico, Finset.mem_insert,
      Finset.mem_singleton, lowWord, highWord]
    obtain ⟨q, r, hqr, hrlt, hdiv, hmod⟩ :
        ∃ q r, x * 3 = 2 ^ 64 * q + r ∧ r < 2 ^ 64 ∧
          x * 3 / 2 ^ 64 = q ∧ x * 3 % 2 ^ 64 = r :=
      ⟨x * 3 / 2 ^ 64, x * 3 % 2 ^ 64, (Nat.div_add_mod _ _).symm,
        Nat.mod_lt _ (by norm_num), rfl, rfl⟩
    simp only [hdiv, hmod]
    clear hdiv hmod
    rcases Nat.lt_or_ge q 3 with hq | hq
    · interval_cases q <;> omega
    · omega
  rw [hset]
  rw [Nat.card_Ico]

theorem firstAcceptCount3_1 : firstAcceptCount 3 1 = 6148914691236517204 := by
  unfold firstAcceptCount
  have hset : ((Finset.range (2 ^ 64)).filter fun x =>
      ¬ lowWord x 3 < 3 ∧ highWord x 3 = 1) = Finset.Ico 6148914691236517207 12297829382473034411 := by
    ext x
    simp only [Finset.mem_filter, Finset.mem_range, Finset.mem_Ico, Finset.mem_insert,
      Finset.mem_singleton, lowWord, highWord]
    obtain ⟨q, r, hqr, hrlt, hdiv, hmod⟩ :
        ∃ q r, x * 3 = 2 ^ 64 * q + r ∧ r < 2 ^ 64 ∧
          x * 3 / 2 ^ 64 = q ∧ x * 3 % 2 ^ 64 = r :=
      ⟨x * 3 / 2 ^ 64, x * 3 % 2 ^ 64, (Nat.div_add_mod _ _).symm,
        Nat.mod_lt _ (by norm_num), rfl, rfl⟩
    simp only [hdiv, hmod]
    clear hdiv hmod
    rcases Nat.lt_or_ge q 3 with hq | hq
    · interval_cases q <;> omega
    · omega
  rw [hset]
  rw [Nat.card_Ico]

theorem rejectCount3 : rejectCount 3 = 3 := by
  unfold rejectCount
  have hset : ((Finset.range (2 ^ 64)).filter fun x =>
      lowWord x 3 < 3) = ({0, 6148914691236517206, 12297829382473034411} : Finset ℕ) := by
    ext x
    simp only [Finset.mem_filter, Finset.mem_range, Finset.mem_Ico, Finset.mem_insert,
      Finset.mem_singleton, lowWord, highWord]
    obtain ⟨q, r, hqr, hrlt, hdiv, hmod⟩ :
        ∃ q r, x * 3 = 2 ^ 64 * q + r ∧ r < 2 ^ 64 ∧
          x * 3 / 2 ^ 64 = q ∧ x * 3 % 2 ^ 64 = r :=
      ⟨x * 3 / 2 ^ 64, x * 3 % 2 ^ 64, (Nat.div_add_mod _ _).symm,
        Nat.mod_lt _ (by norm_num), rfl, rfl⟩
    simp only [hdiv, hmod]
    clear hdiv hmod
    rcases Nat.lt_or_ge q 3 with hq | hq
    · interval_cases q <;> omega
    · omega
  rw [hset]
  decide

theorem loopTotalCount3 : loopTotalCount 3 = 3 := by
  unfold loopTotalCount
  have hset : ((Finset.range (2 ^ 64)).filter fun x =>
      (2 ^ 64 - 3) % 2 ^ 64 ≤ lowWord x 3) = ({6148914691236517205, 12297829382473034410, 18446744073709551615} : Finset ℕ) := by
    ext x
    simp only [Finset.mem_filter, Finset.mem_range, Finset.mem_Ico, Finset.mem_insert,
      Finset.mem_singleton, lowWord, highWord]
    obtain ⟨q, r, hqr, hrlt, hdiv, hmod⟩ :
        ∃ q r, x * 3 = 2 ^ 64 * q + r ∧ r < 2 ^ 64 ∧
          x * 3 / 2 ^ 64 = q ∧ x * 3 % 2 ^ 64 = r :=
      ⟨x * 3 / 2 ^ 64, x * 3 % 2 ^ 64, (Nat.div_add_mod _ _).symm,
        Nat.mod_lt _ (by norm_num), rfl, rfl⟩
    simp only [hdiv, hmod]
    clear hdiv hmod
    rcases Nat.lt_or_ge q 3 with hq | hq
    · interval_cases q <;> omega
    · omega
  rw [hset]
  decide

theorem loopAcceptCount3_0 : loopAcceptCount 3 0 = 1 := by
  unfold loopAcceptCount
  have hset : ((Finset.range (2 ^ 64)).filter fun x =>
      (2 ^ 64 - 3) % 2 ^ 64 ≤ lowWord x 3 ∧ highWord x 3 = 0) = ({6148914691236517205} : Finset ℕ) := by
    ext x
    simp only [Finset.mem_filter, Finset.mem_range, Finset.mem_Ico, Finset.mem_insert,
      Finset.mem_singleton, lowWord, highWord]
    obtain ⟨q, r, hqr, hrlt, hdiv, hmod⟩ :
        ∃ q r, x * 3 = 2 ^ 64 * q + r ∧ r < 2 ^ 64 ∧
          x * 3 / 2 ^ 64 = q ∧ x * 3 % 2 ^ 64 = r :=
      ⟨x * 3 / 2 ^ 64, x * 3 % 2 ^ 64, (Nat.div_add_mod _ _).symm,
        Nat.mod_lt _ (by norm_num), rfl, rfl⟩
    simp only [hdiv, hmod]
    clear hdiv hmod
    rcases Nat.lt_or_ge q 3 with hq | hq
    · interval_cases q <;> omega
    · omega
  rw [hset]
  rw [Finset.card_singleton]

theorem loopAcceptCount3_1 : loopAcceptCount 3 1 = 1 := by
  unfold loopAcceptCount
  have hset : ((Finset.range (2 ^ 64)).filter fun x =>
      (2 ^ 64 - 3) % 2 ^ 64 ≤ lowWord x 3 ∧ highWord x 3 = 1) = ({12297829382473034410} : Finset ℕ) := by
    ext x
    simp only [Finset.mem_filter, Finset.mem_range, Finset.mem_Ico, Finset.mem_insert,
      Finset.mem_singleton, lowWord, highWord]
    obtain ⟨q, r, hqr, hrlt, hdiv, hmod⟩ :
        ∃ q r, x * 3 = 2 ^ 64 * q + r ∧ r < 2 ^ 64 ∧
          x * 3 / 2 ^ 64 = q ∧ x * 3 % 2 ^ 64 = r :=
      ⟨x * 3 / 2 ^ 64, x * 3 % 2 ^ 64, (Nat.div_add_mod _ _).symm,
        Nat.mod_lt _ (by norm_num), rfl, rfl⟩
    simp only [hdiv, hmod]
    clear hdiv hmod
    rcases Nat.lt_or_ge q 3 with hq | hq
    · interval_cases q <;> omega
    · omega
  rw [hset]
  rw [Finset.card_singleton]

/-- C2 (refuting exact uniformity): under independent uniform draws, the exact
output distribution of `sample_u64_in_range` for range 3 is not uniform —
value 0 comes out with probability `((2^64 + 2) / 3) / 2^64 > 1/3`, value 1
with a strictly smaller one. The loop threshold `range.wrapping_neg()`
(that is, `(-range) mod 2^64`) makes the redraw loop return each value with
conditional probability exactly `1/range`, which cannot repair the first
draw's high-word bias; exact uniformity would need Lemire's threshold
`(-range) mod range`. -/
theorem samplePMF3_not_uniform :
    samplePMF 3 0 ≠ samplePMF 3 1 ∧ samplePMF 3 0 ≠ 1 / 3 := by
  unfold samplePMF
  rw [firstAcceptCount3_0, firstAcceptCount3_1, rejectCount3, loopTotalCount3,
    loopAcceptCount3_0, loopAcceptCount3_1]
  norm_num

/-- C1 (failing evaluation): `random::<f32>` on the draw `2^64 - 1` keeps 55
bits (`OFFSET = 32 - 23 = 9` instead of `64 - 23`), the `as f32` conversion
rounds `2^55 - 1` up to `2^55`, and the result is exactly
`2^55 * 2^-55 = 1.0` — so the claimed `[0, 1)` bound, the never-1.0 bound and
the irrelevance of the bits below the mantissa width all fail for `f32`. -/
theorem randomF32_hits_one : randomF32 (2 ^ 64 - 1) = 1 := by
  have hsh : (2 ^ 64 - 1 : ℕ) >>> 9 = 2 ^ 55 - 1 := by decide
  have hlog : Nat.log2 (2 ^ 55 - 1) = 54 := by
    have h1 : 54 ≤ Nat.log2 (2 ^ 55 - 1) := (Nat.le_log2 (by norm_num)).mpr (by norm_num)
    have h2 : Nat.log2 (2 ^ 55 - 1) < 55 := (Nat.log2_lt (by norm_num)).mpr (by norm_num)
    omega
  unfold randomF32 toFloat
  rw [hsh, hlog]
  norm_num [rne]

theorem sampleUniform_some_in_bounds_witness :
    (0 : ℤ) < 255 ∧ BndInRange 0 255 (.inc 10) ∧ BndInRange 0 255 (.exc 20) ∧
      buildUniform 0 255 (.inc 10) (.exc 20) = .dist 10 10 ∧
      (∀ x ∈ [(1 : ℕ)], x < 2 ^ 64) ∧
      sampleU64InRange 10 [1] = some 0 ∧
      (sampleUniform 0 255 10 10 [1] = some (10 + ((0 : ℕ) : ℤ)) ∧
        normLower 0 (.inc 10) ≤ 10 + ((0 : ℕ) : ℤ) ∧
        10 + ((0 : ℕ) : ℤ) ≤ normUpper 255 (.exc 20)) :=
  ⟨by decide, by norm_num [BndInRange], by norm_num [BndInRange], by decide, by decide,
    by decide,
    sampleUniform_some_in_bounds 0 255 (.inc 10) (.exc 20) 10 10 (by decide)
      (by norm_num [BndInRange]) (by norm_num [BndInRange]) (by decide) [1]
      (by decide) 0 (by decide)⟩

end Huy
